import Mathlib

/-!
Shallow embedding of the siren video editor's timeline core
(src/core/shortcuts.ts keyframe engine, src/core/store.ts timeline
mutations, src/core/engine.ts frame compositor and export sequencer).
JavaScript numbers are modelled as exact rationals; JS object spreads
become structure updates; the zustand store's `set`/`get` pair becomes
explicit state passing, where `get()` inside a `set` updater reads the
pre-update state, exactly as the library behaves.
-/

/-- Source `TimeRange {start, end}` in milliseconds (src/core/types import sites). -/
structure TimeRange where
  start : ℚ
  «end» : ℚ
deriving DecidableEq

/-- Source `EasingType` string union from the keyframe engine. -/
inductive EasingType where
  | linear
  | easeIn
  | easeOut
  | easeInOut
  | bezier
deriving DecidableEq

/-- Cubic-bezier control points `{x1, y1, x2, y2}` stored on a keyframe. -/
structure BezierPoints where
  x1 : ℚ
  y1 : ℚ
  x2 : ℚ
  y2 : ℚ
deriving DecidableEq

/-- Source `Keyframe = {time, value, easing, bezierPoints?}` (clip-relative time in ms). -/
structure Keyframe where
  time : ℚ
  value : ℚ
  easing : EasingType
  bezierPoints : Option BezierPoints
deriving DecidableEq

/-- The variant-specific payload of the `Clip` tagged union; only the fields
the timeline operations inspect (`type`, `sourceTimeRange`, `speed`) are kept. -/
inductive ClipKind where
  | video (sourceTimeRange : TimeRange) (speed : ℚ)
  | audio (sourceTimeRange : TimeRange)
  | image
  | text
  | shape
deriving DecidableEq

/-- Shared `Clip` fields: id, trackId, timeRange, optional linkGroupId, variant. -/
structure Clip where
  id : String
  trackId : String
  timeRange : TimeRange
  linkGroupId : Option String
  kind : ClipKind
deriving DecidableEq

/-- Source `Track`: id, flags and the integer paint `order`. -/
structure Track where
  id : String
  name : String
  locked : Bool
  visible : Bool
  muted : Bool
  order : ℤ
deriving DecidableEq

/-- Source `ProjectSettings {width, height, frameRate, backgroundColor}`. -/
structure ProjectSettings where
  width : ℚ
  height : ℚ
  frameRate : ℚ
  backgroundColor : String
deriving DecidableEq

/-- Source `Effect`: only the `clipId` back-reference matters to clip removal. -/
structure Effect where
  id : String
  clipId : String
deriving DecidableEq

/-- Source `Project` as held by the store: tracks, clips, effects, cached duration. -/
structure Project where
  id : String
  name : String
  settings : ProjectSettings
  tracks : List Track
  clips : List Clip
  effects : List Effect
  duration : ℚ
deriving DecidableEq

/-! ## Keyframe engine (src/core/shortcuts.ts, keyframes section) -/

/-- The `easingFunctions` record: linear, ease-in `t*t`, ease-out `t*(2-t)`,
ease-in-out piecewise quadratic, and the placeholder identity under `bezier`. -/
def easingFunctions : EasingType → ℚ → ℚ
  | .linear => fun t => t
  | .easeIn => fun t => t * t
  | .easeOut => fun t => t * (2 - t)
  | .easeInOut => fun t => if t < 1/2 then 2 * t * t else -1 + (4 - 2 * t) * t
  | .bezier => fun t => t

/-- The cubic-bezier `x(u)` polynomial evaluated inside the Newton loop. -/
def bezierX (p1x p2x x : ℚ) : ℚ :=
  3 * p1x * (1 - x) * (1 - x) * x + 3 * p2x * (1 - x) * x * x + x * x * x

/-- The `dx` expression of the Newton loop, exactly as the source writes it. -/
def bezierDX (p1x p2x x : ℚ) : ℚ :=
  3 * p1x * (1 - x) * (1 - x) - 6 * p1x * (1 - x) * x +
    3 * p2x * (1 - x) * (1 - x) - 6 * p2x * (1 - x) * x +
    3 * p2x * x * x - 6 * p2x * (1 - x) * x + 3 * x * x

/-- The fixed-iteration loop of `cubicBezier`: up to `n` Newton steps on `x`,
breaking when `|currentX - t| < 0.0001`. -/
def newtonLoop : ℕ → ℚ → ℚ → ℚ → ℚ → ℚ
  | 0, x, _, _, _ => x
  | n + 1, x, t, p1x, p2x =>
    let currentX := bezierX p1x p2x x
    if |currentX - t| < 1/10000 then x
    else newtonLoop n (x - (currentX - t) / bezierDX p1x p2x x) t p1x p2x

/-- Source `cubicBezier(t, p1x, p1y, p2x, p2y)`: solve `x(u) = t` by the 8-step
Newton loop starting at `u = t`, then evaluate the `y` cubic there. -/
def cubicBezier (t p1x p1y p2x p2y : ℚ) : ℚ :=
  let x := newtonLoop 8 t t p1x p2x
  3 * p1y * (1 - x) * (1 - x) * x + 3 * p2y * (1 - x) * x * x + x * x * x

/-- The copy-and-sort `[...keyframes].sort((a, b) => a.time - b.time)`: a stable ascending sort
by keyframe time, modelled by the stable `List.mergeSort`. -/
def sortKeyframes (keyframes : List Keyframe) : List Keyframe :=
  keyframes.mergeSort (fun a b => decide (a.time ≤ b.time))

/-- The bracketing-pair scan of `interpolateKeyframes`: the first adjacent
pair `(prev, next)` with `prev.time ≤ time < next.time`, if any. -/
def findBracket (time : ℚ) : List Keyframe → Option (Keyframe × Keyframe)
  | a :: b :: rest =>
    if a.time ≤ time ∧ time < b.time then some (a, b)
    else findBracket time (b :: rest)
  | _ => none

/-- Easing application on the `prev` keyframe: the bezier branch runs only
when `easing === 'bezier'` and control points are present. -/
def easeProgress (prev : Keyframe) (progress : ℚ) : ℚ :=
  match prev.easing, prev.bezierPoints with
  | .bezier, some bp => cubicBezier progress bp.x1 bp.y1 bp.x2 bp.y2
  | e, _ => easingFunctions e progress

/-- Body of `interpolateKeyframes` after the sort, for a list of ≥ 2 keyframes:
clamp before the first and after the last keyframe, otherwise interpolate the
bracketing pair with the division-by-zero guard on a zero duration. -/
def interpCore (time : ℚ) (sorted : List Keyframe) : ℚ :=
  match sorted with
  | [] => 0
  | k0 :: tail =>
    if time ≤ k0.time then k0.value
    else if (tail.getLastD k0).time ≤ time then (tail.getLastD k0).value
    else
      let pn := (findBracket time (k0 :: tail)).getD (k0, tail.headD k0)
      let dur := pn.2.time - pn.1.time
      let progress := if 0 < dur then (time - pn.1.time) / dur else 0
      pn.1.value + (pn.2.value - pn.1.value) * easeProgress pn.1 progress

/-- Source `interpolateKeyframes(time, keyframes)`: 0 on an empty list, the constant
value on a singleton, otherwise `interpCore` over the sorted copy. -/
def interpolateKeyframes (time : ℚ) (keyframes : List Keyframe) : ℚ :=
  match keyframes with
  | [] => 0
  | [k] => k.value
  | _ :: _ :: _ => interpCore time (sortKeyframes keyframes)

/-! ## Timeline data model mutations (src/core/store.ts)

Each store action runs `set((state) => ...)`; calls to `get()` made while
building the next state — in particular `get().calculateDuration()` — read the
state from before the update, so they are modelled by reading the pre-mutation
project. -/

/-- Source `calculateDuration`: 0 for an empty clip list, otherwise
`Math.max(...clips.map(c => c.timeRange.end))`. -/
def maxClipEnd : List Clip → ℚ
  | [] => 0
  | c :: cs => (cs.map (fun x => x.timeRange.«end»)).foldl max c.timeRange.«end»

/-- The store's `calculateDuration()`, reading the given project's clips. -/
def calculateDuration (p : Project) : ℚ :=
  maxClipEnd p.clips

/-- Source `addClip`: append the clip; the `duration` field is filled from
`get().calculateDuration()`, which still sees the pre-mutation clip list. -/
def addClip (p : Project) (c : Clip) : Project :=
  { p with clips := p.clips ++ [c], duration := calculateDuration p }

/-- Source `removeClip`: drop the clip and its effects; `duration` again comes from
`get().calculateDuration()` over the pre-mutation clips. -/
def removeClip (p : Project) (clipId : String) : Project :=
  { p with
    clips := p.clips.filter (fun c => c.id != clipId),
    effects := p.effects.filter (fun e => e.clipId != clipId),
    duration := calculateDuration p }

/-- Source `trimClip`: replace the clip's timeRange; `duration` from the
pre-mutation clips. -/
def trimClip (p : Project) (clipId : String) (timeRange : TimeRange) : Project :=
  { p with
    clips := p.clips.map (fun c => if c.id == clipId then { c with timeRange } else c),
    duration := calculateDuration p }

/-- Source `moveClip(id, trackId, startTime)`: retarget the dragged clip's track and
start, and shift every clip sharing its `linkGroupId` by the same delta with
the linked start clamped to ≥ 0. -/
def moveClip (p : Project) (clipId : String) (trackId : String) (startTime : ℚ) : Project :=
  match p.clips.find? (fun c => c.id == clipId) with
  | none => p
  | some clip =>
    let duration := clip.timeRange.«end» - clip.timeRange.start
    let timeDelta := startTime - clip.timeRange.start
    let linkedClipIds : List String :=
      match clip.linkGroupId with
      | some g => (p.clips.filter (fun c => c.linkGroupId == some g)).map (fun c => c.id)
      | none => [clipId]
    { p with
      clips := p.clips.map (fun c =>
        if c.id == clipId then
          { c with trackId := trackId, timeRange := ⟨startTime, startTime + duration⟩ }
        else if linkedClipIds.contains c.id then
          let linkedDuration := c.timeRange.«end» - c.timeRange.start
          let newStart := max 0 (c.timeRange.start + timeDelta)
          { c with timeRange := ⟨newStart, newStart + linkedDuration⟩ }
        else c) }

/-- Source `splitClip(id, time)`: no-op unless the clip exists and
`clip.start < time < clip.end`; otherwise replace it by two halves, with a
video clip's `sourceTimeRange` recomputed through `speed || 1` (so a stored
speed of 0 is treated as 1) and `sourceTimeRange?.end || fallback` (so a
stored source end of 0 falls back to the recomputed end). The fresh uuid of
the second half is passed in as `newId`. -/
def splitClip (p : Project) (clipId : String) (time : ℚ) (newId : String) : Project :=
  match p.clips.find? (fun c => c.id == clipId) with
  | none => p
  | some clip =>
    if time ≤ clip.timeRange.start ∨ clip.timeRange.«end» ≤ time then p
    else
      let splitPointInClip := time - clip.timeRange.start
      let firstClip := { clip with timeRange := ⟨clip.timeRange.start, time⟩ }
      let secondClip := { clip with id := newId, timeRange := ⟨time, clip.timeRange.«end»⟩ }
      let newPair : List Clip :=
        match clip.kind with
        | .video str speed =>
          let sourceStart := str.start
          let speedEff := if speed = 0 then 1 else speed
          let sourceOffset := splitPointInClip * speedEff
          let secondSourceEnd :=
            if str.«end» = 0 then
              sourceStart + sourceOffset + (clip.timeRange.«end» - time) * speedEff
            else str.«end»
          [{ firstClip with kind := ClipKind.video ⟨sourceStart, sourceStart + sourceOffset⟩ speed },
           { secondClip with kind := ClipKind.video ⟨sourceStart + sourceOffset, secondSourceEnd⟩ speed }]
        | _ => [firstClip, secondClip]
      { p with clips := p.clips.filter (fun c => c.id != clipId) ++ newPair }

/-- Source `linkClips(clipIds)`: for ≥ 2 ids, stamp the fresh shared `groupId`
(passed in for the generated uuid) onto every listed clip. -/
def linkClips (p : Project) (clipIds : List String) (groupId : String) : Project :=
  if clipIds.length < 2 then p
  else
    { p with
      clips := p.clips.map (fun clip =>
        if clipIds.contains clip.id then { clip with linkGroupId := some groupId } else clip) }

/-! ## Frame compositor and export sequencer (src/core/engine.ts, `export`) -/

/-- The lookup `tracks.find(t => t.id === clip.trackId)`. -/
def trackFor (tracks : List Track) (c : Clip) : Option Track :=
  tracks.find? (fun t => t.id == c.trackId)

/-- The fallback `track?.order ?? 0`: the paint order of a clip's track, defaulting to 0. -/
def trackOrderOf (tracks : List Track) (c : Clip) : ℤ :=
  match trackFor tracks c with
  | some t => t.order
  | none => 0

/-- The activity test of the export loop:
`track?.visible !== false && T ≥ clip.start && T < clip.end`. -/
def isActive (tracks : List Track) (currentTime : ℚ) (c : Clip) : Bool :=
  (match trackFor tracks c with
   | some t => t.visible
   | none => true)
  && decide (c.timeRange.start ≤ currentTime)
  && decide (currentTime < c.timeRange.«end»)

/-- Active clips of one frame, sorted by `(trackB?.order ?? 0) - (trackA?.order ?? 0)`
with JavaScript's stable sort — descending track order, ties in original order. -/
def activeClips (tracks : List Track) (clips : List Clip) (currentTime : ℚ) : List Clip :=
  (clips.filter (isActive tracks currentTime)).mergeSort
    (fun a b => decide (trackOrderOf tracks b ≤ trackOrderOf tracks a))

/-- The export frame loop: duration = longest clip end (0 when no clips),
`duration === 0` fails with "No clips to export", otherwise render
`totalFrames = ceil(duration/1000 * frameRate)` frames at
`currentTime = frame / frameRate * 1000`; each rendered frame is modelled by
its back-to-front draw list. -/
def exportFrames (p : Project) : Except String (List (List Clip)) :=
  let duration : ℚ := if p.clips.isEmpty then 0 else maxClipEnd p.clips
  if duration = 0 then Except.error "No clips to export"
  else
    let totalFrames : ℤ := ⌈duration / 1000 * p.settings.frameRate⌉
    Except.ok ((List.range totalFrames.toNat).map
      (fun frame : ℕ => activeClips p.tracks p.clips ((frame : ℚ) / p.settings.frameRate * 1000)))

/-! ## Lemmas about the bracketing scan -/

/-- The adjacent-pair scan succeeds whenever the query time lies between the
head's time and the last element's time. -/
theorem findBracket_isSome (t : ℚ) :
    ∀ (l : List Keyframe) (a : Keyframe),
      a.time ≤ t → t < (l.getLastD a).time → (findBracket t (a :: l)).isSome := by
  intro l
  induction l with
  | nil =>
    intro a h1 h2
    simp only [List.getLastD] at h2
    exact absurd (lt_of_le_of_lt h1 h2) (lt_irrefl _)
  | cons b rest ih =>
    intro a h1 h2
    rw [findBracket]
    split
    · simp
    · rename_i hcond
      have hb : b.time ≤ t := by
        rcases not_and_or.mp hcond with h | h
        · exact absurd h1 h
        · exact le_of_not_lt h
      have h2' : t < (rest.getLastD b).time := by
        rwa [List.getLastD_cons] at h2
      exact ih b hb h2'

/-- Whatever the scan returns is an adjacent pair of the scanned list that
brackets the query time. -/
theorem findBracket_eq_some (t : ℚ) :
    ∀ (l : List Keyframe) (p n : Keyframe),
      findBracket t l = some (p, n) →
      p.time ≤ t ∧ t < n.time ∧ [p, n] <:+: l := by
  intro l
  induction l with
  | nil => intro p n h; simp [findBracket] at h
  | cons a rest ih =>
    intro p n h
    match rest, h with
    | [], h => simp [findBracket] at h
    | b :: rest, h =>
      rw [findBracket] at h
      split at h
      · rename_i hcond
        obtain ⟨rfl, rfl⟩ : a = p ∧ b = n := by simpa using h
        exact ⟨hcond.1, hcond.2, ⟨[], rest, by simp⟩⟩
      · have := ih p n h
        exact ⟨this.1, this.2.1, this.2.2.trans (List.suffix_cons a (b :: rest)).isInfix⟩

/-! ## C1: the keyframe interpolation contract -/

/-- Claim C1: for a non-empty keyframe list, `interpolateKeyframes` returns the
singleton's value on a one-element list; on longer lists (after the stable sort
by time) the first keyframe's value when `t ≤ first.time`, else the last
keyframe's value when `last.time ≤ t`, and otherwise
`prev.value + (next.value − prev.value) × easedProgress` for an adjacent
bracketing pair `(prev, next)`, with the progress treated as 0 when the two
keyframe times coincide. -/
theorem interpolateKeyframes_spec (kfs : List Keyframe) (t : ℚ) (h : kfs ≠ []) :
    (∀ k, kfs = [k] → interpolateKeyframes t kfs = k.value) ∧
    (∀ k0 tail, 2 ≤ kfs.length → sortKeyframes kfs = k0 :: tail →
      ((t ≤ k0.time → interpolateKeyframes t kfs = k0.value) ∧
       (¬ t ≤ k0.time → (tail.getLastD k0).time ≤ t →
          interpolateKeyframes t kfs = (tail.getLastD k0).value) ∧
       (k0.time < t → t < (tail.getLastD k0).time →
          ∃ prev next, [prev, next] <:+: sortKeyframes kfs ∧ prev.time ≤ t ∧ t < next.time ∧
            interpolateKeyframes t kfs =
              prev.value + (next.value - prev.value) *
                easeProgress prev
                  (if 0 < next.time - prev.time then (t - prev.time) / (next.time - prev.time)
                   else 0)))) := by
  constructor
  · intro k hk
    subst hk
    rfl
  · intro k0 tail hlen hs
    obtain ⟨a, b, rest, rfl⟩ : ∃ a b rest, kfs = a :: b :: rest := by
      match kfs, h, hlen with
      | a :: b :: rest, _, _ => exact ⟨a, b, rest, rfl⟩
      | [a], _, hlen => simp at hlen
    have hdef : interpolateKeyframes t (a :: b :: rest) = interpCore t (k0 :: tail) := by
      rw [← hs]
      rfl
    refine ⟨?_, ?_, ?_⟩
    · intro ht
      rw [hdef]
      simp only [interpCore]
      rw [if_pos ht]
    · intro ht hlast
      rw [hdef]
      simp only [interpCore]
      rw [if_neg ht, if_pos hlast]
    · intro h1 h2
      have hns : (findBracket t (k0 :: tail)).isSome :=
        findBracket_isSome t tail k0 (le_of_lt h1) h2
      obtain ⟨⟨p, n⟩, hfb⟩ := Option.isSome_iff_exists.mp hns
      obtain ⟨hp, hn, hinf⟩ := findBracket_eq_some t (k0 :: tail) p n hfb
      refine ⟨p, n, ?_, hp, hn, ?_⟩
      · rw [hs]
        exact hinf
      · rw [hdef]
        simp only [interpCore]
        rw [if_neg (not_le.mpr h1), if_neg (not_le.mpr h2), hfb]
        simp only [Option.getD_some]

/-- A concrete two-keyframe track used to witness the interpolation contract. -/
def kfsW : List Keyframe := [⟨0, 0, .linear, none⟩, ⟨1000, 1, .linear, none⟩]

/-- Witness for C1 at the two-keyframe list `kfsW` and time `t = 250`. -/
theorem interpolateKeyframes_spec_witness :
    kfsW ≠ [] ∧
    ((∀ k, kfsW = [k] → interpolateKeyframes 250 kfsW = k.value) ∧
     (∀ k0 tail, 2 ≤ kfsW.length → sortKeyframes kfsW = k0 :: tail →
       ((250 ≤ k0.time → interpolateKeyframes 250 kfsW = k0.value) ∧
        (¬ (250:ℚ) ≤ k0.time → (tail.getLastD k0).time ≤ 250 →
           interpolateKeyframes 250 kfsW = (tail.getLastD k0).value) ∧
        (k0.time < 250 → (250:ℚ) < (tail.getLastD k0).time →
           ∃ prev next, [prev, next] <:+: sortKeyframes kfsW ∧ prev.time ≤ 250 ∧
             (250:ℚ) < next.time ∧
             interpolateKeyframes 250 kfsW =
               prev.value + (next.value - prev.value) *
                 easeProgress prev
                   (if 0 < next.time - prev.time then (250 - prev.time) / (next.time - prev.time)
                    else 0))))) :=
  ⟨by simp [kfsW], interpolateKeyframes_spec kfsW 250 (by simp [kfsW])⟩

/-! ## C10: totality at the public interface -/

/-- Claim C10: `interpolateKeyframes` is total where the spec declares a caller
contract violation — an empty keyframe list yields 0 at every time — and the
sort works on a copy: it permutes the keyframes without consuming or changing
the caller's list (the embedding is pure, so the input list itself is untouched
by construction; the permutation fact captures that the copy holds exactly the
caller's keyframes). -/
theorem interpolateKeyframes_total :
    (∀ t : ℚ, interpolateKeyframes t [] = 0) ∧
    (∀ kfs : List Keyframe, (sortKeyframes kfs).Perm kfs) :=
  ⟨fun _ => rfl, fun kfs => List.mergeSort_perm kfs _⟩

/-! ## C8: easing boundary values and the ease-in-out midpoint scenario -/

/-- Claim C8: ease-in, ease-out and ease-in-out all map progress 0 to 0 and
1 to 1; ease-in-out maps 1/2 to exactly 1/2; and the spec's scenario —
keyframes (0ms, 0) and (1000ms, 1) with the store's default `ease-in-out`
easing, queried at clip-relative 500ms — yields exactly 1/2, strictly
between 0 and 1. -/
theorem easing_boundaries :
    easingFunctions .easeIn 0 = 0 ∧ easingFunctions .easeIn 1 = 1 ∧
    easingFunctions .easeOut 0 = 0 ∧ easingFunctions .easeOut 1 = 1 ∧
    easingFunctions .easeInOut 0 = 0 ∧ easingFunctions .easeInOut 1 = 1 ∧
    easingFunctions .easeInOut (1/2) = 1/2 ∧
    interpolateKeyframes 500 [⟨0, 0, .easeInOut, none⟩, ⟨1000, 1, .easeInOut, none⟩] = 1/2 ∧
    0 < interpolateKeyframes 500 [⟨0, 0, .easeInOut, none⟩, ⟨1000, 1, .easeInOut, none⟩] ∧
    interpolateKeyframes 500 [⟨0, 0, .easeInOut, none⟩, ⟨1000, 1, .easeInOut, none⟩] < 1 := by
  have hs : sortKeyframes [⟨0, 0, .easeInOut, none⟩, ⟨1000, 1, .easeInOut, none⟩] =
      [⟨0, 0, .easeInOut, none⟩, ⟨1000, 1, .easeInOut, none⟩] := by
    apply List.mergeSort_of_sorted
    simp
  have hv : interpolateKeyframes 500 [⟨0, 0, .easeInOut, none⟩, ⟨1000, 1, .easeInOut, none⟩]
      = 1/2 := by
    simp only [interpolateKeyframes, hs, interpCore]
    norm_num [findBracket, easeProgress, easingFunctions]
  refine ⟨?_, ?_, ?_, ?_, ?_, ?_, ?_, hv, ?_, ?_⟩ <;>
    norm_num [easingFunctions, hv]

/-! ## C9: the cubic-bezier solver on the linear control points -/

/-- One unfolding step of the Newton loop. -/
theorem newtonLoop_succ (n : ℕ) (x t p1x p2x : ℚ) :
    newtonLoop (n + 1) x t p1x p2x =
      if |bezierX p1x p2x x - t| < 1/10000 then x
      else newtonLoop n (x - (bezierX p1x p2x x - t) / bezierDX p1x p2x x) t p1x p2x := rfl

/-- The Newton loop with exhausted fuel returns the current iterate. -/
theorem newtonLoop_zero (x t p1x p2x : ℚ) : newtonLoop 0 x t p1x p2x = x := rfl

/-- Claim C9 fails: at `t = 1/4` with the linear control points (0,0,1,1) the
solver's result is more than 1/1000 below 1/4 (it is ≈ 0.1358), so it is not
within 1e-3 of the analytic value `t`; the `dx` expression in the source is
not the derivative of its `currentX`, so the iteration is not a contraction. -/
theorem cubicBezier_linear_not_within_tolerance :
    cubicBezier (1/4) 0 0 1 1 < 1/4 - 1/1000 := by
  norm_num [cubicBezier, newtonLoop_succ, newtonLoop_zero, bezierX, bezierDX, abs_lt]

/-! ## C2: the duration field after add/remove/trim -/

/-- An empty project with standard settings, used as the failing input. -/
def emptyProject : Project :=
  ⟨"p1", "Untitled", ⟨1080, 1920, 30, "#000000"⟩, [], [], [], 0⟩

/-- A 5-second video clip on track `t0`. -/
def clip5s : Clip :=
  ⟨"c1", "t0", ⟨0, 5000⟩, none, ClipKind.video ⟨0, 5000⟩ 1⟩

/-- Claim C2 fails on the code: `addClip` fills `duration` from
`get().calculateDuration()`, which reads the pre-mutation clip list, so after
adding a 5000 ms clip to an empty project the stored duration is a stale 0
while the maximum clip end of the post-mutation list is 5000; symmetrically,
removing the only clip leaves the previous 5000 behind instead of 0. -/
theorem addClip_duration_stale :
    (addClip emptyProject clip5s).clips = [clip5s] ∧
    (addClip emptyProject clip5s).duration = 0 ∧
    maxClipEnd (addClip emptyProject clip5s).clips = 5000 ∧
    (addClip emptyProject clip5s).duration ≠ maxClipEnd (addClip emptyProject clip5s).clips ∧
    (removeClip { emptyProject with clips := [clip5s], duration := 5000 } "c1").clips = [] ∧
    (removeClip { emptyProject with clips := [clip5s], duration := 5000 } "c1").duration = 5000 := by
  refine ⟨rfl, ?_, ?_, ?_, ?_, ?_⟩ <;>
    norm_num [addClip, removeClip, calculateDuration, maxClipEnd, emptyProject, clip5s]

/-! ## C7 and C3: splitClip -/

/-- Claim C7: an invalid split — unknown clip id, or a split time at/outside
the clip's boundaries — leaves the project's clip list exactly as it was. -/
theorem splitClip_invalid_noop (p : Project) (clipId : String) (t : ℚ) (newId : String)
    (h : p.clips.find? (fun c => c.id == clipId) = none ∨
      ∃ c, p.clips.find? (fun c => c.id == clipId) = some c ∧
        (t ≤ c.timeRange.start ∨ c.timeRange.«end» ≤ t)) :
    (splitClip p clipId t newId).clips = p.clips := by
  rcases h with h | ⟨c, hc, hrange⟩
  · simp only [splitClip, h]
  · simp only [splitClip, hc]
    rw [if_pos hrange]

/-- A clip and project used to witness the invalid-split no-op. -/
def imageClipW : Clip := ⟨"i1", "t0", ⟨200, 900⟩, none, ClipKind.image⟩

/-- Project holding only `imageClipW`. -/
def pImage : Project :=
  ⟨"p3", "Untitled", ⟨1080, 1920, 30, "#000000"⟩, [], [imageClipW], [], 0⟩

/-- Witness for C7: splitting `imageClipW` at `t = 900` (its end) is a no-op. -/
theorem splitClip_invalid_noop_witness :
    (pImage.clips.find? (fun c => c.id == "i1") = none ∨
      ∃ c, pImage.clips.find? (fun c => c.id == "i1") = some c ∧
        ((900:ℚ) ≤ c.timeRange.start ∨ c.timeRange.«end» ≤ 900)) ∧
    (splitClip pImage "i1" 900 "i2").clips = pImage.clips :=
  ⟨Or.inr ⟨imageClipW, rfl, Or.inr (by norm_num [imageClipW])⟩,
   splitClip_invalid_noop pImage "i1" 900 "i2"
     (Or.inr ⟨imageClipW, rfl, Or.inr (by norm_num [imageClipW])⟩)⟩

/-- Claim C3 (amended to a nonzero speed, since the source reads
`videoClip.speed || 1`): a valid split replaces the found clip by two halves
with contiguous ranges meeting at `t` whose union is the original range, and
for a video clip with source start `s` and speed `k ≠ 0` the first half's
source range is `[s, s + (t − start)·k]` and the second half's source range
starts at `s + (t − start)·k`. -/
theorem splitClip_valid (p : Project) (clipId newId : String) (t : ℚ) (c : Clip)
    (hfind : p.clips.find? (fun x => x.id == clipId) = some c)
    (h1 : c.timeRange.start < t) (h2 : t < c.timeRange.«end») :
    ∃ first second,
      (splitClip p clipId t newId).clips =
        p.clips.filter (fun x => x.id != clipId) ++ [first, second] ∧
      first.timeRange.start = c.timeRange.start ∧
      first.timeRange.«end» = t ∧
      second.timeRange.start = t ∧
      second.timeRange.«end» = c.timeRange.«end» ∧
      first.id = c.id ∧ second.id = newId ∧
      first.trackId = c.trackId ∧ second.trackId = c.trackId ∧
      (∀ str k, c.kind = ClipKind.video str k → k ≠ 0 →
        first.kind = ClipKind.video ⟨str.start, str.start + (t - c.timeRange.start) * k⟩ k ∧
        ∃ e2, second.kind = ClipKind.video ⟨str.start + (t - c.timeRange.start) * k, e2⟩ k) := by
  have hcond : ¬ (t ≤ c.timeRange.start ∨ c.timeRange.«end» ≤ t) := by
    push_neg
    exact ⟨h1, h2⟩
  simp only [splitClip, hfind]
  rw [if_neg hcond]
  cases hk : c.kind with
  | video str k =>
    refine ⟨_, _, rfl, rfl, rfl, rfl, rfl, rfl, rfl, rfl, rfl, ?_⟩
    intro str0 k0 hkind hk0
    obtain ⟨rfl, rfl⟩ : str = str0 ∧ k = k0 := by
      cases hkind
      exact ⟨rfl, rfl⟩
    simp only
    rw [if_neg hk0]
    exact ⟨rfl, _, rfl⟩
  | audio str =>
    refine ⟨_, _, rfl, rfl, rfl, rfl, rfl, rfl, rfl, rfl, rfl, ?_⟩
    intro str0 k0 hkind _
    simp at hkind
  | image =>
    refine ⟨_, _, rfl, rfl, rfl, rfl, rfl, rfl, rfl, rfl, rfl, ?_⟩
    intro str0 k0 hkind _
    simp at hkind
  | text =>
    refine ⟨_, _, rfl, rfl, rfl, rfl, rfl, rfl, rfl, rfl, rfl, ?_⟩
    intro str0 k0 hkind _
    simp at hkind
  | shape =>
    refine ⟨_, _, rfl, rfl, rfl, rfl, rfl, rfl, rfl, rfl, rfl, ?_⟩
    intro str0 k0 hkind _
    simp at hkind

/-- A video clip stored with speed 0 and source range [100, 1100]. -/
def videoClip0 : Clip := ⟨"v1", "t0", ⟨0, 1000⟩, none, ClipKind.video ⟨100, 1100⟩ 0⟩

/-- Project holding only `videoClip0`. -/
def pVideo : Project :=
  ⟨"p4", "Untitled", ⟨1080, 1920, 30, "#000000"⟩, [], [videoClip0], [], 0⟩

/-- Counterexample to C3 as stated: splitting the speed-0 video clip at
`t = 500` recomputes the source offset with `speed || 1`, producing a first
half whose source range ends at 600, not at `s + (t − start)·k = 100`. -/
theorem splitClip_speed_zero_cex :
    (splitClip pVideo "v1" 500 "v2").clips =
      [⟨"v1", "t0", ⟨0, 500⟩, none, ClipKind.video ⟨100, 600⟩ 0⟩,
       ⟨"v2", "t0", ⟨500, 1000⟩, none, ClipKind.video ⟨600, 1100⟩ 0⟩] ∧
    (600 : ℚ) ≠ 100 + (500 - 0) * 0 := by
  constructor
  · norm_num [splitClip, pVideo, videoClip0]
  · norm_num

/-- A video clip with speed 2 and source range [100, 2100]. -/
def videoClip2 : Clip := ⟨"v1", "t0", ⟨0, 1000⟩, none, ClipKind.video ⟨100, 2100⟩ 2⟩

/-- Project holding only `videoClip2`. -/
def pVideo2 : Project :=
  ⟨"p5", "Untitled", ⟨1080, 1920, 30, "#000000"⟩, [], [videoClip2], [], 0⟩

/-- Witness for the amended C3 at the speed-2 video clip, split at `t = 500`. -/
theorem splitClip_valid_witness :
    (pVideo2.clips.find? (fun x => x.id == "v1") = some videoClip2 ∧
     videoClip2.timeRange.start < 500 ∧ (500:ℚ) < videoClip2.timeRange.«end») ∧
    (∃ first second,
      (splitClip pVideo2 "v1" 500 "v2").clips =
        pVideo2.clips.filter (fun x => x.id != "v1") ++ [first, second] ∧
      first.timeRange.start = videoClip2.timeRange.start ∧
      first.timeRange.«end» = 500 ∧
      second.timeRange.start = 500 ∧
      second.timeRange.«end» = videoClip2.timeRange.«end» ∧
      first.id = videoClip2.id ∧ second.id = "v2" ∧
      first.trackId = videoClip2.trackId ∧ second.trackId = videoClip2.trackId ∧
      (∀ str k, videoClip2.kind = ClipKind.video str k → k ≠ 0 →
        first.kind =
          ClipKind.video ⟨str.start, str.start + (500 - videoClip2.timeRange.start) * k⟩ k ∧
        ∃ e2, second.kind =
          ClipKind.video ⟨str.start + (500 - videoClip2.timeRange.start) * k, e2⟩ k)) :=
  ⟨⟨rfl, by norm_num [videoClip2], by norm_num [videoClip2]⟩,
   splitClip_valid pVideo2 "v1" "v2" 500 videoClip2 rfl
     (by norm_num [videoClip2]) (by norm_num [videoClip2])⟩

/-! ## C6: linked clips move by the dragged clip's delta -/

/-- Claim C6: after `linkClips` stamps a fresh group id onto clips `ids`
(with the dragged clip `a` among them), `moveClip a trackId newStart` maps the
clip list element-wise so that every other linked clip keeps its id and track,
is shifted by exactly the dragged clip's time delta with its new start clamped
to ≥ 0 (so exactly the delta whenever that stays non-negative), keeps its
duration, while the dragged clip itself moves to `newStart` on the new track;
clips outside the link set are untouched. -/
theorem moveClip_linked (p : Project) (ids : List String) (gid a trIdNew : String) (ns : ℚ)
    (ca : Clip)
    (h2 : 2 ≤ ids.length)
    (ha : a ∈ ids)
    (hfresh : ∀ c ∈ p.clips, c.linkGroupId ≠ some gid)
    (hfind : p.clips.find? (fun c => c.id == a) = some ca) :
    ∃ f, (moveClip (linkClips p ids gid) a trIdNew ns).clips = p.clips.map f ∧
      (∀ c ∈ p.clips, c.id ∈ ids → c.id ≠ a →
        (f c).id = c.id ∧
        (f c).trackId = c.trackId ∧
        (f c).timeRange.start = max 0 (c.timeRange.start + (ns - ca.timeRange.start)) ∧
        (f c).timeRange.«end» =
          (f c).timeRange.start + (c.timeRange.«end» - c.timeRange.start) ∧
        (0 ≤ c.timeRange.start + (ns - ca.timeRange.start) →
          (f c).timeRange.start - c.timeRange.start = ns - ca.timeRange.start)) ∧
      (∀ c ∈ p.clips, c.id = a →
        (f c).trackId = trIdNew ∧
        (f c).timeRange.start = ns ∧
        (f c).timeRange.«end» = ns + (ca.timeRange.«end» - ca.timeRange.start)) ∧
      (∀ c ∈ p.clips, c.id ∉ ids → f c = c) := by
  have hlen : ¬ ids.length < 2 := not_lt.mpr h2
  have hcaid : ca.id = a := by
    have := List.find?_some hfind
    simpa using this
  have hlink : (linkClips p ids gid).clips =
      p.clips.map (fun clip =>
        if ids.contains clip.id then { clip with linkGroupId := some gid } else clip) := by
    simp only [linkClips]
    rw [if_neg hlen]
  have hidlink : ∀ c : Clip,
      ((fun clip => if ids.contains clip.id then { clip with linkGroupId := some gid }
        else clip) c).id = c.id := by
    intro c
    dsimp only
    split <;> rfl
  have hfind2 : (linkClips p ids gid).clips.find? (fun c => c.id == a) =
      some (if ids.contains ca.id then { ca with linkGroupId := some gid } else ca) := by
    rw [hlink, List.find?_map]
    have hcomp : ((fun c : Clip => c.id == a) ∘
        (fun clip => if ids.contains clip.id then { clip with linkGroupId := some gid }
          else clip)) = (fun c : Clip => c.id == a) := by
      funext c
      simp only [Function.comp]
      rw [hidlink c]
    rw [hcomp, hfind]
    rfl
  have hcacontains : ids.contains ca.id = true := by
    rw [hcaid]
    exact List.elem_eq_true_of_mem ha
  rw [if_pos hcacontains] at hfind2
  simp only [moveClip, hfind2]
  rw [hlink, List.map_map]
  refine ⟨_, rfl, ?_, ?_, ?_⟩
  · intro c hc hcin hcne
    simp only [Function.comp]
    have hccontains : ids.contains c.id = true := List.elem_eq_true_of_mem hcin
    rw [if_pos hccontains]
    have hbeqne : ¬ ((({ c with linkGroupId := some gid } : Clip).id == a) = true) := by
      simp only [beq_iff_eq]
      exact hcne
    rw [if_neg hbeqne]
    split
    · refine ⟨rfl, rfl, rfl, rfl, ?_⟩
      intro hge
      show (max 0 (c.timeRange.start + (ns - ca.timeRange.start))) - c.timeRange.start = _
      rw [max_eq_right hge]
      ring
    · rename_i hcontr
      exfalso
      apply hcontr
      have hmem : ({ c with linkGroupId := some gid } : Clip).id ∈
          (((p.clips.map (fun clip =>
            if ids.contains clip.id then { clip with linkGroupId := some gid } else clip)).filter
              (fun c => c.linkGroupId == some gid)).map (fun c => c.id)) := by
        refine List.mem_map.mpr ⟨{ c with linkGroupId := some gid }, ?_, rfl⟩
        refine List.mem_filter.mpr ⟨?_, by simp⟩
        refine List.mem_map.mpr ⟨c, hc, ?_⟩
        dsimp only
        rw [if_pos hccontains]
      exact List.elem_eq_true_of_mem hmem
  · intro c hc hceq
    simp only [Function.comp]
    by_cases hcin : ids.contains c.id = true
    · rw [if_pos hcin]
      have hbeq : ((({ c with linkGroupId := some gid } : Clip).id == a) = true) := by
        simp only [beq_iff_eq]
        exact hceq
      rw [if_pos hbeq]
      exact ⟨rfl, rfl, rfl⟩
    · rw [if_neg hcin]
      have hbeq : ((c.id == a) = true) := by
        simp only [beq_iff_eq]
        exact hceq
      rw [if_pos hbeq]
      exact ⟨rfl, rfl, rfl⟩
  · intro c hc hcnot
    simp only [Function.comp]
    have hcfalse : ¬ (ids.contains c.id = true) := fun hcontr =>
      hcnot (List.mem_of_elem_eq_true hcontr)
    rw [if_neg hcfalse]
    have hbeqne : ¬ ((c.id == a) = true) := by
      simp only [beq_iff_eq]
      exact fun h => hcnot (h ▸ ha)
    rw [if_neg hbeqne]
    split
    · rename_i hcontr
      exfalso
      have hmem := List.mem_of_elem_eq_true hcontr
      obtain ⟨d, hdf, hdid⟩ := List.mem_map.mp hmem
      obtain ⟨hdm, hdlink⟩ := List.mem_filter.mp hdf
      obtain ⟨e, hep, hed⟩ := List.mem_map.mp hdm
      by_cases hein : ids.contains e.id = true
      · rw [if_pos hein] at hed
        have heid : e.id = c.id := by
          rw [← hdid, ← hed]
        exact hcnot (heid ▸ List.mem_of_elem_eq_true hein)
      · rw [if_neg hein] at hed
        rw [← hed] at hdlink
        have := hfresh e hep
        simp only [beq_iff_eq] at hdlink
        exact this hdlink
    · rfl

/-- Three unlinked clips used to witness the link-then-move behavior. -/
def clipA : Clip := ⟨"a", "t0", ⟨100, 200⟩, none, ClipKind.image⟩

/-- Second linked clip. -/
def clipB : Clip := ⟨"b", "t0", ⟨50, 80⟩, none, ClipKind.image⟩

/-- Third linked clip. -/
def clipC : Clip := ⟨"c", "t0", ⟨0, 30⟩, none, ClipKind.text⟩

/-- Project holding `clipA`, `clipB`, `clipC`. -/
def pLink : Project :=
  ⟨"p6", "Untitled", ⟨1080, 1920, 30, "#000000"⟩, [], [clipA, clipB, clipC], [], 0⟩

/-- Witness for C6: link `[a, b, c]`, then move `a` to track `t1` at 300 ms. -/
theorem moveClip_linked_witness :
    (2 ≤ (["a", "b", "c"] : List String).length ∧ "a" ∈ (["a", "b", "c"] : List String) ∧
     (∀ c ∈ pLink.clips, c.linkGroupId ≠ some "g") ∧
     pLink.clips.find? (fun c => c.id == "a") = some clipA) ∧
    (∃ f, (moveClip (linkClips pLink ["a", "b", "c"] "g") "a" "t1" 300).clips =
        pLink.clips.map f ∧
      (∀ c ∈ pLink.clips, c.id ∈ (["a", "b", "c"] : List String) → c.id ≠ "a" →
        (f c).id = c.id ∧
        (f c).trackId = c.trackId ∧
        (f c).timeRange.start = max 0 (c.timeRange.start + (300 - clipA.timeRange.start)) ∧
        (f c).timeRange.«end» =
          (f c).timeRange.start + (c.timeRange.«end» - c.timeRange.start) ∧
        (0 ≤ c.timeRange.start + (300 - clipA.timeRange.start) →
          (f c).timeRange.start - c.timeRange.start = 300 - clipA.timeRange.start)) ∧
      (∀ c ∈ pLink.clips, c.id = "a" →
        (f c).trackId = "t1" ∧
        (f c).timeRange.start = 300 ∧
        (f c).timeRange.«end» = 300 + (clipA.timeRange.«end» - clipA.timeRange.start)) ∧
      (∀ c ∈ pLink.clips, c.id ∉ (["a", "b", "c"] : List String) → f c = c)) :=
  ⟨⟨by norm_num, by simp,
    by
      intro c hc
      simp only [pLink, List.mem_cons, List.not_mem_nil, or_false] at hc
      rcases hc with rfl | rfl | rfl <;> simp [clipA, clipB, clipC],
    rfl⟩,
   moveClip_linked pLink ["a", "b", "c"] "g" "a" "t1" 300 clipA (by norm_num) (by simp)
     (by
       intro c hc
       simp only [pLink, List.mem_cons, List.not_mem_nil, or_false] at hc
       rcases hc with rfl | rfl | rfl <;> simp [clipA, clipB, clipC])
     rfl⟩

/-! ## C5: the export sequencer -/

/-- The seed of a left max-fold bounds the fold from below. -/
theorem foldl_max_init (l : List ℚ) : ∀ q : ℚ, q ≤ l.foldl max q := by
  induction l with
  | nil => intro q; exact le_refl q
  | cons x xs ih => intro q; exact le_trans (le_max_left q x) (ih (max q x))

/-- Every element of the list bounds a left max-fold from below. -/
theorem foldl_max_mem (l : List ℚ) : ∀ q x, x ∈ l → x ≤ l.foldl max q := by
  induction l with
  | nil => intro q x hx; simp at hx
  | cons y ys ih =>
    intro q x hx
    rcases List.mem_cons.mp hx with rfl | hx
    · exact le_trans (le_max_right q x) (foldl_max_init ys (max q x))
    · exact ih (max q y) x hx

/-- A left max-fold returns its seed or one of the list elements. -/
theorem foldl_max_cases (l : List ℚ) : ∀ q, l.foldl max q = q ∨ l.foldl max q ∈ l := by
  induction l with
  | nil => intro q; exact Or.inl rfl
  | cons y ys ih =>
    intro q
    rw [List.foldl_cons]
    rcases ih (max q y) with h | h
    · rcases max_cases q y with ⟨he, _⟩ | ⟨he, _⟩
      · left; rw [h, he]
      · right; rw [h, he]; exact List.mem_cons_self y ys
    · right; exact List.mem_cons_of_mem y h

/-- The value `maxClipEnd` is an upper bound of all clip end times. -/
theorem maxClipEnd_ub (clips : List Clip) : ∀ c ∈ clips, c.timeRange.«end» ≤ maxClipEnd clips := by
  intro c hc
  cases clips with
  | nil => simp at hc
  | cons d ds =>
    rw [maxClipEnd]
    rcases List.mem_cons.mp hc with rfl | hc
    · exact foldl_max_init _ _
    · exact foldl_max_mem _ _ _ (List.mem_map_of_mem _ hc)

/-- On a non-empty clip list, `maxClipEnd` is attained by some clip. -/
theorem maxClipEnd_attained (clips : List Clip) (h : clips ≠ []) :
    ∃ c ∈ clips, c.timeRange.«end» = maxClipEnd clips := by
  cases clips with
  | nil => exact absurd rfl h
  | cons d ds =>
    rw [maxClipEnd]
    rcases foldl_max_cases (ds.map fun x => x.timeRange.«end») d.timeRange.«end» with h1 | h1
    · exact ⟨d, List.mem_cons_self d ds, h1.symm⟩
    · obtain ⟨c, hc, hce⟩ := List.mem_map.mp h1
      exact ⟨c, List.mem_cons_of_mem d hc, hce⟩

/-- Claim C5: with valid clip ranges (0 ≤ start < end) and a positive frame
rate, `export` fails fast with the "No clips to export" error on an empty clip
list, before any frame is composited; otherwise it succeeds and composites
exactly `ceil(duration/1000 × frameRate)` frames where the duration is the
maximum clip end time over the post list. -/
theorem exportFrames_spec (p : Project)
    (hval : ∀ c ∈ p.clips, 0 ≤ c.timeRange.start ∧ c.timeRange.start < c.timeRange.«end»)
    (hfr : 0 < p.settings.frameRate) :
    (p.clips = [] → exportFrames p = Except.error "No clips to export") ∧
    (p.clips ≠ [] →
      ∃ frames, exportFrames p = Except.ok frames ∧
        (∀ c ∈ p.clips, c.timeRange.«end» ≤ maxClipEnd p.clips) ∧
        (∃ c ∈ p.clips, c.timeRange.«end» = maxClipEnd p.clips) ∧
        (frames.length : ℤ) = ⌈maxClipEnd p.clips / 1000 * p.settings.frameRate⌉) := by
  constructor
  · intro h
    simp [exportFrames, h]
  · intro h
    have hpos : 0 < maxClipEnd p.clips := by
      obtain ⟨c, hc, hce⟩ := maxClipEnd_attained p.clips h
      have h1 := (hval c hc).1
      have h2 := (hval c hc).2
      rw [← hce]
      exact lt_of_le_of_lt h1 h2
    have hdur : (if p.clips.isEmpty then (0:ℚ) else maxClipEnd p.clips) = maxClipEnd p.clips := by
      rw [if_neg]
      simpa using h
    have hcpos : (0:ℤ) < ⌈maxClipEnd p.clips / 1000 * p.settings.frameRate⌉ := by
      apply Int.ceil_pos.mpr
      positivity
    refine ⟨(List.range (⌈maxClipEnd p.clips / 1000 * p.settings.frameRate⌉).toNat).map
        (fun frame : ℕ => activeClips p.tracks p.clips ((frame : ℚ) / p.settings.frameRate * 1000)),
      ?_, maxClipEnd_ub p.clips, maxClipEnd_attained p.clips h, ?_⟩
    · simp only [exportFrames, hdur]
      rw [if_neg (ne_of_gt hpos)]
    · simp only [List.length_map, List.length_range]
      exact Int.toNat_of_nonneg (le_of_lt hcpos)

/-- Project with a single 5-second clip at 30 fps, for the export witness. -/
def pExport : Project :=
  ⟨"p7", "Untitled", ⟨1080, 1920, 30, "#000000"⟩, [], [clip5s], [], 0⟩

/-- Witness for C5 at the one-clip 5-second project. -/
theorem exportFrames_spec_witness :
    ((∀ c ∈ pExport.clips, 0 ≤ c.timeRange.start ∧ c.timeRange.start < c.timeRange.«end») ∧
     0 < pExport.settings.frameRate) ∧
    ((pExport.clips = [] → exportFrames pExport = Except.error "No clips to export") ∧
     (pExport.clips ≠ [] →
       ∃ frames, exportFrames pExport = Except.ok frames ∧
         (∀ c ∈ pExport.clips, c.timeRange.«end» ≤ maxClipEnd pExport.clips) ∧
         (∃ c ∈ pExport.clips, c.timeRange.«end» = maxClipEnd pExport.clips) ∧
         (frames.length : ℤ) =
           ⌈maxClipEnd pExport.clips / 1000 * pExport.settings.frameRate⌉)) :=
  ⟨⟨by
      intro c hc
      simp only [pExport, List.mem_cons, List.not_mem_nil, or_false] at hc
      subst hc
      norm_num [clip5s],
    by norm_num [pExport]⟩,
   exportFrames_spec pExport
     (by
       intro c hc
       simp only [pExport, List.mem_cons, List.not_mem_nil, or_false] at hc
       subst hc
       norm_num [clip5s])
     (by norm_num [pExport])⟩

/-! ## C4: frame compositor activity and paint order -/

/-- Claim C4: at time `T` the frame draw list holds exactly the clips whose
track is visible with `T ∈ [start, end)` (given every clip's track exists), as
a permutation of the filtered clip list; it is ordered by descending track
order (highest order first, i.e. drawn behind), and clips on tracks of equal
order keep their original relative order. -/
theorem activeClips_spec (tracks : List Track) (clips : List Clip) (T : ℚ)
    (htrack : ∀ c ∈ clips, (trackFor tracks c).isSome) :
    (activeClips tracks clips T).Perm (clips.filter (isActive tracks T)) ∧
    (∀ c ∈ clips, (c ∈ activeClips tracks clips T ↔
      ∃ tr, trackFor tracks c = some tr ∧ tr.visible = true ∧
        c.timeRange.start ≤ T ∧ T < c.timeRange.«end»)) ∧
    (activeClips tracks clips T).Pairwise
      (fun a b => trackOrderOf tracks b ≤ trackOrderOf tracks a) ∧
    (∀ a b : Clip, trackOrderOf tracks a = trackOrderOf tracks b →
      [a, b].Sublist (clips.filter (isActive tracks T)) →
      [a, b].Sublist (activeClips tracks clips T)) := by
  have htrans : ∀ a b c : Clip,
      (decide (trackOrderOf tracks b ≤ trackOrderOf tracks a)) = true →
      (decide (trackOrderOf tracks c ≤ trackOrderOf tracks b)) = true →
      (decide (trackOrderOf tracks c ≤ trackOrderOf tracks a)) = true := by
    intro a b c h1 h2
    simp only [decide_eq_true_eq] at h1 h2 ⊢
    exact le_trans h2 h1
  have htotal : ∀ a b : Clip,
      ((decide (trackOrderOf tracks b ≤ trackOrderOf tracks a)) ||
       (decide (trackOrderOf tracks a ≤ trackOrderOf tracks b))) = true := by
    intro a b
    rcases le_total (trackOrderOf tracks b) (trackOrderOf tracks a) with h | h
    · simp [h]
    · simp [h]
  refine ⟨List.mergeSort_perm _ _, ?_, ?_, ?_⟩
  · intro c hc
    constructor
    · intro hmem
      have hmf : c ∈ clips.filter (isActive tracks T) := by
        simpa [activeClips] using hmem
      have hact : isActive tracks T c = true := (List.mem_filter.mp hmf).2
      obtain ⟨tr, htr⟩ := Option.isSome_iff_exists.mp (htrack c hc)
      refine ⟨tr, htr, ?_⟩
      rw [isActive, htr] at hact
      simp only [Bool.and_eq_true, decide_eq_true_eq] at hact
      exact ⟨hact.1.1, hact.1.2, hact.2⟩
    · rintro ⟨tr, htr, hv, h1, h2⟩
      have : c ∈ clips.filter (isActive tracks T) := by
        refine List.mem_filter.mpr ⟨hc, ?_⟩
        rw [isActive, htr]
        simp [hv, h1, h2]
      simpa [activeClips] using this
  · have hs := List.sorted_mergeSort htrans htotal (clips.filter (isActive tracks T))
    exact hs.imp (fun h => decide_eq_true_eq.mp h)
  · intro a b hab hsub
    exact List.pair_sublist_mergeSort htrans htotal
      (by simp [hab]) hsub

/-- Visible track with paint order 0 (front). -/
def trackW0 : Track := ⟨"t0", "Video 1", false, true, false, 0⟩

/-- Visible track with paint order 1 (behind). -/
def trackW1 : Track := ⟨"t1", "Text", false, true, false, 1⟩

/-- Clip on the order-0 track, active on [0, 1000). -/
def clipW1 : Clip := ⟨"x", "t0", ⟨0, 1000⟩, none, ClipKind.image⟩

/-- Clip on the order-1 track, active on [0, 800). -/
def clipW2 : Clip := ⟨"y", "t1", ⟨0, 800⟩, none, ClipKind.text⟩

/-- Witness for C4 at two overlapping clips on tracks of order 0 and 1 at
`T = 500`. -/
theorem activeClips_spec_witness :
    (∀ c ∈ [clipW1, clipW2], (trackFor [trackW0, trackW1] c).isSome) ∧
    ((activeClips [trackW0, trackW1] [clipW1, clipW2] 500).Perm
        ([clipW1, clipW2].filter (isActive [trackW0, trackW1] 500)) ∧
     (∀ c ∈ [clipW1, clipW2], (c ∈ activeClips [trackW0, trackW1] [clipW1, clipW2] 500 ↔
       ∃ tr, trackFor [trackW0, trackW1] c = some tr ∧ tr.visible = true ∧
         c.timeRange.start ≤ 500 ∧ (500:ℚ) < c.timeRange.«end»)) ∧
     (activeClips [trackW0, trackW1] [clipW1, clipW2] 500).Pairwise
       (fun a b => trackOrderOf [trackW0, trackW1] b ≤ trackOrderOf [trackW0, trackW1] a) ∧
     (∀ a b : Clip, trackOrderOf [trackW0, trackW1] a = trackOrderOf [trackW0, trackW1] b →
       [a, b].Sublist ([clipW1, clipW2].filter (isActive [trackW0, trackW1] 500)) →
       [a, b].Sublist (activeClips [trackW0, trackW1] [clipW1, clipW2] 500))) :=
  ⟨by
      intro c hc
      simp only [List.mem_cons, List.not_mem_nil, or_false] at hc
      rcases hc with rfl | rfl <;> rfl,
   activeClips_spec [trackW0, trackW1] [clipW1, clipW2] 500
     (by
       intro c hc
       simp only [List.mem_cons, List.not_mem_nil, or_false] at hc
       rcases hc with rfl | rfl <;> rfl)⟩
